import Mathlib

/-!
Verification of the pheddit search server (`src/main.rs`).

The development shallowly embeds the core of the program:

* JSON values (`serde_json::Value`) as the inductive `Json`;
* the fail-soft field accessor `get_str`;
* the whole-word case-insensitive matching performed by the regexes
  `(?i)\b<escaped word>\b` (an external library; modelled from its
  documented semantics, with `\w` and case folding taken over ASCII);
* the `search` handler's filter, the `candidates` handler's
  filter + sort + three-way bucketing (the out-of-bounds slice
  `&matches[start..end]` is modelled as an `Option`, `none` standing
  for the Rust panic);
* the startup loader's keying of records by their `"id"` field into a
  hash map (modelled as an association list deduplicated by key).

The store itself is modelled as a list of `(key, record)` pairs; the
unordered parallel scan of the `HashMap` is captured by quantifying over
permutations of that list where order matters.
-/

/-- Model of `serde_json::Value`. -/
inductive Json where
  | null
  | bool (b : Bool)
  | num (n : Int)
  | str (s : String)
  | arr (elems : List Json)
  | obj (fields : List (String × Json))

/-- Model of `Value::get(key)`: field lookup on an object, `none` on any
other value.  `serde_json` object keys are unique, so first match suffices. -/
def Json.getKey : Json → String → Option Json
  | .obj fields, key => (fields.find? (fun p => p.1 == key)).map (·.2)
  | _, _ => none

/-- Model of `Value::as_str`. -/
def Json.asStr : Json → Option String
  | .str s => some s
  | _ => none

/-- `get_str` from main.rs: `value.get(key).and_then(|v| v.as_str()).unwrap_or("")`. -/
def get_str (value : Json) (key : String) : String :=
  ((value.getKey key).bind Json.asStr).getD ""

/-- A regex word character (`\w`), over the ASCII fragment: letters, digits
and underscore. -/
def wordChar (c : Char) : Bool :=
  c.isAlphanum || c == '_'

/-- Case folding used by the `(?i)` flag, over the ASCII fragment. -/
def foldChar (c : Char) : Char := c.toLower

/-- Case-insensitive character comparison. -/
def foldEq (a b : Char) : Bool := foldChar a == foldChar b

/-- Whether the character at position `p` of `t` is a word character
(`false` past either end). -/
def isWordCharAt (t : List Char) (p : Nat) : Bool :=
  match t.get? p with
  | some c => wordChar c
  | none => false

/-- The `\b` assertion at position `p` of `t`: word-character-ness differs
between positions `p - 1` and `p` (virtual non-word characters beyond the
ends). -/
def boundaryAt (t : List Char) (p : Nat) : Bool :=
  (match p with
   | 0 => false
   | q + 1 => isWordCharAt t q) != isWordCharAt t p

/-- Case-insensitive literal prefix match: `w` matches the beginning of `s`
up to case folding. -/
def literalMatch : List Char → List Char → Bool
  | [], _ => true
  | _ :: _, [] => false
  | c :: cs, d :: ds => foldEq c d && literalMatch cs ds

/-- Model of `Regex::new(&format!(r"(?i)\b{}\b", regex::escape(word))).is_match(text)`:
some position of `text` starts a case-insensitive occurrence of the literal
`word` flanked by word boundaries.  (`regex::escape` makes the word a literal,
so it does not appear in the model.) -/
def isMatch (word text : String) : Bool :=
  let w := word.data
  let t := text.data
  (List.range (t.length + 1)).any fun i =>
    boundaryAt t i && literalMatch w (t.drop i) && boundaryAt t (i + w.length)

/-- Model of `str::split_whitespace` on lists of characters: maximal runs of
non-whitespace characters, in order.  `acc` holds the current run reversed. -/
def splitWSAux : List Char → List Char → List (List Char)
  | [], acc => if acc.isEmpty then [] else [acc.reverse]
  | c :: cs, acc =>
    if c.isWhitespace then
      if acc.isEmpty then splitWSAux cs [] else acc.reverse :: splitWSAux cs []
    else
      splitWSAux cs (c :: acc)

/-- Model of `str::split_whitespace`. -/
def splitWhitespace (s : String) : List String :=
  (splitWSAux s.data []).map String.mk

/-- The record store: the entries of the `Posts` hash map.  Order is the
(arbitrary) scan order of `par_iter`. -/
abbrev Store := List (String × Json)

/-- The `search` handler's core (main.rs lines 70–82): compile one matcher
per whitespace-separated query word (compilation of an escaped literal never
fails, so no word is dropped), then keep the records for which every matcher
hits the title or the selftext. -/
def search (posts : Store) (query : String) : List Json :=
  ((posts.map (fun p => (p.2, get_str p.2 "title", get_str p.2 "selftext"))).filter
      (fun x => (splitWhitespace query).all
        (fun re => isMatch re x.2.1 || isMatch re x.2.2))).map
    (fun x => x.1)

-- Sanity checks (boundary semantics): whole-word, case-insensitive.
example : isMatch "cat" "cute cats" = false := by decide
example : isMatch "cat" "cute Cat photos" = true := by decide
example : isMatch "cat" "concatenate" = false := by decide
example : isMatch "cat" "a cat." = true := by decide

/-- The hard-coded topic vocabulary of the `candidates` handler
(main.rs lines 136–148), verbatim. -/
def queries : List String :=
  ["degree",
   "career", "careers",
   "programming",
   "school",
   "learn", "learning",
   "switch", "switching",
   "change", "changing",
   "college", "university",
   "advice",
   "bootcamp", "bootcamps", "camp", "camps",
   "self taught"]

/-- The compiled matcher groups `res` of the `candidates` handler: one list
of word matchers per topic query (again, compilation never fails for the
escaped literals, so no word is dropped). -/
def topicMatchers : List (List String) :=
  queries.map splitWhitespace

/-- The filter stage of `candidates` (main.rs lines 161–169): keep the
records for which some topic group has all its word matchers hit the title
or the selftext. -/
def candidateFilter (posts : Store) : List Json :=
  ((posts.map (fun p => (p.2, get_str p.2 "title", get_str p.2 "selftext"))).filter
      (fun x => topicMatchers.any fun terms =>
        terms.all fun re => isMatch re x.2.1 || isMatch re x.2.2)).map
    (fun x => x.1)

/-- Structural lexicographic comparison of character lists.  On valid UTF-8
this agrees with Rust's byte-lexicographic `&str` ordering, and with Lean's
`String` order (`strLtb_iff_lt` below). -/
def strLtb : List Char → List Char → Bool
  | _, [] => false
  | [], _ :: _ => true
  | a :: as, b :: bs =>
    if a < b then true
    else if b < a then false
    else strLtb as bs

lemma strLtb_eq_true_iff : ∀ x y : List Char, strLtb x y = true ↔ List.lt x y := by
  intro x
  induction x with
  | nil =>
    intro y
    cases y with
    | nil =>
      simp only [strLtb, Bool.false_eq_true, false_iff]
      intro h
      cases h
    | cons b bs =>
      simp only [strLtb, true_iff]
      exact List.lt.nil b bs
  | cons a as ih =>
    intro y
    cases y with
    | nil =>
      simp only [strLtb, Bool.false_eq_true, false_iff]
      intro h
      cases h
    | cons b bs =>
      show (if a < b then true else if b < a then false else strLtb as bs) = true ↔ _
      by_cases hab : a < b
      · rw [if_pos hab]
        simp only [true_iff]
        exact List.lt.head as bs hab
      · rw [if_neg hab]
        by_cases hba : b < a
        · rw [if_pos hba]
          simp only [Bool.false_eq_true, false_iff]
          intro h
          cases h with
          | head _ _ h => exact hab h
          | tail h1 h2 _ => exact h2 hba
        · rw [if_neg hba, ih bs]
          constructor
          · exact fun h => List.lt.tail hab hba h
          · intro h
            cases h with
            | head _ _ h => exact absurd h hab
            | tail _ _ h => exact h

/-- `strLtb` decides the `String` order. -/
lemma strLtb_iff_lt (s t : String) : strLtb s.data t.data = true ↔ s < t := by
  rw [String.lt_iff_toList_lt]
  show _ ↔ List.Lex (· < ·) s.data t.data
  rw [← List.lt_iff_lex_lt]
  exact strLtb_eq_true_iff s.data t.data

/-- The sort key order of `matches.sort_by_key(|post| get_str(post, "id"))`:
records compared by their `"id"` field, strings compared lexicographically. -/
def idLe (a b : Json) : Prop :=
  get_str a "id" ≤ get_str b "id"

instance : DecidableRel idLe := fun a b =>
  decidable_of_iff (strLtb (get_str b "id").data (get_str a "id").data = false) (by
    rw [Bool.eq_false_iff, Ne, strLtb_iff_lt]
    exact not_lt)

/-- `matches.sort_by_key(|post| get_str(post, "id"))` (main.rs line 171):
a stable sort by the record's `"id"` field.  Stable sorts are extensionally
unique, so the stable `insertionSort` coincides with Rust's stable
`sort_by_key` on every input. -/
def sortedCandidates (posts : Store) : List Json :=
  (candidateFilter posts).insertionSort idLe

/-- Rust slicing `&l[start..stop]`: defined when `start ≤ stop ≤ l.len()`,
a panic — modelled as `none` — otherwise. -/
def sliceRange (l : List Json) (start stop : Nat) : Option (List Json) :=
  if start ≤ stop ∧ stop ≤ l.length then
    some ((l.drop start).take (stop - start))
  else
    none

/-- The `candidates` handler (main.rs lines 135–187): filter, sort by id,
then return the half-open slice `[n*total/3, (n+1)*total/3)` of the sorted
list, together with the bounds and the total.  `none` models the panic of an
out-of-range slice. -/
def candidates (posts : Store) (n : Nat) : Option (Nat × Nat × List Json × Nat) :=
  (sliceRange (sortedCandidates posts)
      (n * (sortedCandidates posts).length / 3)
      ((n + 1) * (sortedCandidates posts).length / 3)).map
    fun b => (n * (sortedCandidates posts).length / 3,
      (n + 1) * (sortedCandidates posts).length / 3, b,
      (sortedCandidates posts).length)

/-- The loader's keying step (main.rs line 218):
`.map(|post| (get_str(&post, "id").to_string(), post))`. -/
def loadEntries (records : List Json) : Store :=
  records.map fun post => (get_str post "id", post)

/-- Collecting `(key, value)` pairs into a `HashMap`: at most one entry per
key survives; an entry is kept iff no later entry has the same key
(last-writer-wins). -/
def dedupKeys : Store → Store
  | [] => []
  | (k, v) :: rest =>
    if rest.any (fun p => p.1 == k) then dedupKeys rest
    else (k, v) :: dedupKeys rest

/-- The store built at startup (main.rs lines 211–220): records keyed by
their `"id"` field, collected into a hash map. -/
def loadStore (records : List Json) : Store :=
  dedupKeys (loadEntries records)

/-- `posts.map.get(id)` as used by the `post` handler (main.rs line 112). -/
def lookup (posts : Store) (id : String) : Option Json :=
  (posts.find? (fun p => p.1 == id)).map (·.2)

/-- Declarative characterization of the regex `(?i)\b<word>\b` hitting
`text`: some position `i` carries a case-insensitive occurrence of the
whole word, flanked by word boundaries. -/
def WholeWordMatch (word text : String) : Prop :=
  ∃ i, i + word.data.length ≤ text.data.length ∧
    word.data.map foldChar = ((text.data.drop i).take word.data.length).map foldChar ∧
    boundaryAt text.data i = true ∧
    boundaryAt text.data (i + word.data.length) = true

/-- A record qualifies for `search posts query` iff every query word
whole-word-matches its title or its selftext. -/
def MatchesQuery (query : String) (r : Json) : Prop :=
  ∀ w ∈ splitWhitespace query,
    WholeWordMatch w (get_str r "title") ∨ WholeWordMatch w (get_str r "selftext")

/-- A record qualifies as a candidate iff some topic group has all its
words whole-word-matching the title or the selftext. -/
def IsCandidate (r : Json) : Prop :=
  ∃ g ∈ queries, ∀ w ∈ splitWhitespace g,
    WholeWordMatch w (get_str r "title") ∨ WholeWordMatch w (get_str r "selftext")

lemma literalMatch_iff (w s : List Char) :
    literalMatch w s = true ↔
      w.length ≤ s.length ∧ w.map foldChar = (s.take w.length).map foldChar := by
  induction w generalizing s with
  | nil => simp [literalMatch]
  | cons c cs ih =>
    cases s with
    | nil => simp [literalMatch]
    | cons d ds =>
      simp only [literalMatch, Bool.and_eq_true, foldEq, beq_iff_eq, ih,
        List.length_cons, List.take_succ_cons, List.map_cons, List.cons.injEq,
        Nat.succ_le_succ_iff]
      tauto

lemma isMatch_iff (word text : String) :
    isMatch word text = true ↔ WholeWordMatch word text := by
  unfold isMatch WholeWordMatch
  simp only [List.any_eq_true, List.mem_range, Bool.and_eq_true, literalMatch_iff,
    List.length_drop]
  constructor
  · rintro ⟨i, hi, ⟨hb1, hlen, heq⟩, hb2⟩
    exact ⟨i, by omega, heq, hb1, hb2⟩
  · rintro ⟨i, hle, heq, hb1, hb2⟩
    exact ⟨i, by omega, ⟨hb1, by omega, heq⟩, hb2⟩

lemma mem_search_iff (posts : Store) (query : String) (r : Json) :
    r ∈ search posts query ↔ (∃ k, (k, r) ∈ posts) ∧ MatchesQuery query r := by
  unfold search MatchesQuery
  simp only [List.mem_map, List.mem_filter, List.all_eq_true, Bool.or_eq_true, isMatch_iff]
  constructor
  · rintro ⟨x, ⟨⟨p, hp, rfl⟩, hall⟩, rfl⟩
    exact ⟨⟨p.1, hp⟩, hall⟩
  · rintro ⟨⟨k, hk⟩, hall⟩
    exact ⟨(r, get_str r "title", get_str r "selftext"), ⟨⟨(k, r), hk, rfl⟩, hall⟩, rfl⟩

lemma mem_candidateFilter_iff (posts : Store) (r : Json) :
    r ∈ candidateFilter posts ↔ (∃ k, (k, r) ∈ posts) ∧ IsCandidate r := by
  unfold candidateFilter IsCandidate topicMatchers
  simp only [List.mem_map, List.mem_filter, List.any_eq_true, List.all_eq_true,
    Bool.or_eq_true, isMatch_iff]
  constructor
  · rintro ⟨x, ⟨⟨p, hp, rfl⟩, t, ht, hall⟩, rfl⟩
    obtain ⟨g, hg, rfl⟩ := ht
    exact ⟨⟨p.1, hp⟩, g, hg, hall⟩
  · rintro ⟨⟨k, hk⟩, g, hg, hall⟩
    exact ⟨(r, get_str r "title", get_str r "selftext"),
      ⟨⟨(k, r), hk, rfl⟩, splitWhitespace g, ⟨g, hg, rfl⟩, hall⟩, rfl⟩

/-- A record whose only occurrences of the letters "cat" are inside the
word "cats". -/
def catsPost : Json :=
  .obj [("id", .str "9"), ("title", .str "cats everywhere"),
        ("selftext", .str "I like cats")]

/-- The first record of the worked example in the spec. -/
def examplePost : Json :=
  .obj [("id", .str "1"), ("title", .str "Switching careers into programming"),
        ("selftext", .str "")]

/-- The second record of the worked example in the spec. -/
def catPhotosPost : Json :=
  .obj [("id", .str "2"), ("title", .str "Cat photos"),
        ("selftext", .str "cute cats")]

/-- The worked example store of the spec. -/
def exampleStore : Store :=
  [("1", examplePost), ("2", catPhotosPost)]

/-- C1: `search` selects a record iff every matcher compiled from a
whitespace-separated word of the query whole-word-matches (case
insensitively) the record's title or its selftext (OR between the two
fields, AND across matchers); in particular matching respects word
boundaries, so the query "cat" does not select a record whose only
occurrences are "cats". -/
theorem search_selects_iff_all_words_match :
    (∀ (posts : Store) (q : String) (r : Json),
      r ∈ search posts q ↔ (∃ k, (k, r) ∈ posts) ∧ MatchesQuery q r) ∧
    search [("9", catsPost)] "cat" = [] := by
  exact ⟨mem_search_iff, rfl⟩

/-- Witness for C1: instantiating the characterization on the spec's worked
example, the record titled "Switching careers into programming" is selected
by the query "programming", so every query word whole-word-matches it. -/
theorem search_selects_iff_all_words_match_witness :
    (∃ k, (k, examplePost) ∈ exampleStore) ∧ MatchesQuery "programming" examplePost :=
  (search_selects_iff_all_words_match.1 exampleStore "programming" examplePost).mp
    (List.Mem.head _)

/-- C5: with the empty query, no matcher is compiled, the AND over matchers
is vacuously true, and `search` returns every record of a nonempty store. -/
theorem search_empty_query_returns_all (posts : Store) (h : posts ≠ []) :
    search posts "" = posts.map (fun p => p.2) ∧ search posts "" ≠ [] := by
  have heq : search posts "" = posts.map (fun p => p.2) := by
    unfold search
    have hq : splitWhitespace "" = [] := rfl
    rw [hq]
    simp [List.filter_true, List.map_map, Function.comp]
  refine ⟨heq, ?_⟩
  rw [heq]
  simpa using h

/-- Witness for C5: on the spec's nonempty worked example store, the empty
query returns both records. -/
theorem search_empty_query_returns_all_witness :
    search exampleStore "" = exampleStore.map (fun p => p.2) ∧
      search exampleStore "" ≠ [] :=
  search_empty_query_returns_all exampleStore (by simp [exampleStore])

/-- C4: a record qualifies as a candidate iff at least one of the hard-coded
topic groups has every one of its whitespace-separated words whole-word-match
the record's title or selftext (OR over groups, AND over the words of a
group, OR over the two fields), with the same matching primitive as
`search`. -/
theorem candidate_iff_some_topic_group_fires (posts : Store) (r : Json) :
    r ∈ candidateFilter posts ↔ (∃ k, (k, r) ∈ posts) ∧ IsCandidate r :=
  mem_candidateFilter_iff posts r

/-- Witness for C4: on the spec's worked example, the record titled
"Switching careers into programming" qualifies, so some topic group fires
on it. -/
theorem candidate_iff_some_topic_group_fires_witness :
    (∃ k, (k, examplePost) ∈ exampleStore) ∧ IsCandidate examplePost :=
  (candidate_iff_some_topic_group_fires exampleStore examplePost).mp
    (List.Mem.head _)

lemma candidates_eq_of_lt_three (posts : Store) (n : Nat) (h : n < 3) :
    candidates posts n =
      some (n * (sortedCandidates posts).length / 3,
        (n + 1) * (sortedCandidates posts).length / 3,
        ((sortedCandidates posts).drop (n * (sortedCandidates posts).length / 3)).take
          ((n + 1) * (sortedCandidates posts).length / 3 -
            n * (sortedCandidates posts).length / 3),
        (sortedCandidates posts).length) := by
  unfold candidates sliceRange
  have h1 : n * (sortedCandidates posts).length / 3 ≤
      (n + 1) * (sortedCandidates posts).length / 3 :=
    Nat.div_le_div_right (Nat.mul_le_mul_right _ (Nat.le_succ n))
  have h2 : (n + 1) * (sortedCandidates posts).length / 3 ≤
      (sortedCandidates posts).length := by
    have h3 : (n + 1) * (sortedCandidates posts).length ≤
        3 * (sortedCandidates posts).length :=
      Nat.mul_le_mul_right _ (by omega)
    have h4 := Nat.div_le_div_right (c := 3) h3
    omega
  rw [if_pos ⟨h1, h2⟩]
  rfl

/-- C9: for any store and any bucket index `n < 3`, the computed bounds
satisfy `start ≤ end ≤ total`, so the half-open slice is in bounds and
`candidates` cannot fail on bucket indices 0, 1 and 2. -/
theorem candidates_low_bucket_in_bounds (posts : Store) (n : Nat) (h : n < 3) :
    n * (sortedCandidates posts).length / 3 ≤
        (n + 1) * (sortedCandidates posts).length / 3 ∧
      (n + 1) * (sortedCandidates posts).length / 3 ≤
        (sortedCandidates posts).length ∧
      (candidates posts n).isSome = true := by
  refine ⟨Nat.div_le_div_right (Nat.mul_le_mul_right _ (Nat.le_succ n)), ?_, ?_⟩
  · have h3 : (n + 1) * (sortedCandidates posts).length ≤
        3 * (sortedCandidates posts).length :=
      Nat.mul_le_mul_right _ (by omega)
    have h4 := Nat.div_le_div_right (c := 3) h3
    omega
  · rw [candidates_eq_of_lt_three posts n h]
    rfl

/-- Witness for C9: bucket 0 of the spec's worked example store is in
bounds. -/
theorem candidates_low_bucket_in_bounds_witness :
    0 < 3 ∧
      (0 * (sortedCandidates exampleStore).length / 3 ≤
          (0 + 1) * (sortedCandidates exampleStore).length / 3 ∧
        (0 + 1) * (sortedCandidates exampleStore).length / 3 ≤
          (sortedCandidates exampleStore).length ∧
        (candidates exampleStore 0).isSome = true) :=
  ⟨by decide, candidates_low_bucket_in_bounds exampleStore 0 (by decide)⟩

/-- C3: buckets 0, 1 and 2 are the contiguous slices of the sorted candidate
list delimited by `i * total / 3` and `(i + 1) * total / 3` (integer floor
division); they are pairwise non-overlapping, their sizes differ by at most
one, and their concatenation in order 0, 1, 2 is exactly the full sorted
candidate sequence. -/
theorem candidates_partition_thirds (posts : Store) :
    ∃ b0 b1 b2 : List Json,
      candidates posts 0 = some (0 * (sortedCandidates posts).length / 3,
        (0 + 1) * (sortedCandidates posts).length / 3, b0,
        (sortedCandidates posts).length) ∧
      candidates posts 1 = some (1 * (sortedCandidates posts).length / 3,
        (1 + 1) * (sortedCandidates posts).length / 3, b1,
        (sortedCandidates posts).length) ∧
      candidates posts 2 = some (2 * (sortedCandidates posts).length / 3,
        (2 + 1) * (sortedCandidates posts).length / 3, b2,
        (sortedCandidates posts).length) ∧
      b0 ++ b1 ++ b2 = sortedCandidates posts ∧
      b0.length ≤ b1.length + 1 ∧ b1.length ≤ b0.length + 1 ∧
      b0.length ≤ b2.length + 1 ∧ b2.length ≤ b0.length + 1 ∧
      b1.length ≤ b2.length + 1 ∧ b2.length ≤ b1.length + 1 := by
  refine ⟨_, _, _, candidates_eq_of_lt_three posts 0 (by omega),
    candidates_eq_of_lt_three posts 1 (by omega),
    candidates_eq_of_lt_three posts 2 (by omega), ?_⟩
  generalize sortedCandidates posts = l
  have e00 : 0 * l.length / 3 = 0 := by omega
  have e01 : (0 + 1) * l.length / 3 = l.length / 3 := by omega
  have e10 : 1 * l.length / 3 = l.length / 3 := by omega
  have e11 : (1 + 1) * l.length / 3 = 2 * l.length / 3 := by omega
  have e21 : (2 + 1) * l.length / 3 = 3 * l.length / 3 := by omega
  have e3 : 3 * l.length / 3 = l.length := by omega
  simp only [e00, e01, e10, e11, e21, e3, List.drop_zero, Nat.sub_zero]
  have s1 : l.take (l.length / 3) ++
      (l.drop (l.length / 3)).take (2 * l.length / 3 - l.length / 3) =
      l.take (2 * l.length / 3) := by
    rw [← List.take_add]
    congr 1
    omega
  have s2 : l.take (2 * l.length / 3) ++
      (l.drop (2 * l.length / 3)).take (l.length - 2 * l.length / 3) =
      l.take l.length := by
    rw [← List.take_add]
    congr 1
    omega
  refine ⟨?_, ?_⟩
  · rw [s1, s2, List.take_length]
  · simp only [List.length_take, List.length_drop]
    omega

/-- A store whose three records all qualify as candidates. -/
def threeCandidateStore : Store :=
  [("a", .obj [("id", .str "a"), ("title", .str "programming"), ("selftext", .str "")]),
   ("b", .obj [("id", .str "b"), ("title", .str "programming"), ("selftext", .str "")]),
   ("c", .obj [("id", .str "c"), ("title", .str "programming"), ("selftext", .str "")])]

/-- Counterexample to C2: on a store with no candidate-qualifying records,
`candidates` with bucket index 3 does not fail at all — the slice bounds
degenerate to `[0, 0)` and it silently returns an empty bucket, so bucket
index 3 is not a defined invalid-argument failure for every store. -/
theorem candidates_bucket_three_succeeds_on_empty :
    candidates ([] : Store) 3 = some (0, 0, [], 0) ∧
      (candidates ([] : Store) 3).isSome = true :=
  ⟨rfl, rfl⟩

/-- C2 (amended): for `n ≥ 3`, `candidates` does not signal a defined
invalid-argument failure; it fails — by the out-of-range slice
`&matches[start..end]`, a panic in the handler, modelled as `none` — exactly
when `(n - 2) * total ≥ 3` (for `n = 3`: when at least three records
qualify), and otherwise silently returns an empty bucket. -/
theorem candidates_high_bucket_fails_iff (posts : Store) (n : Nat) (h : 3 ≤ n) :
    candidates posts n = none ↔
      3 ≤ (n - 2) * (sortedCandidates posts).length := by
  obtain ⟨k, rfl⟩ : ∃ k, n = k + 3 := ⟨n - 3, by omega⟩
  unfold candidates sliceRange
  have hrw : (k + 3 + 1) * (sortedCandidates posts).length =
      (k + 1) * (sortedCandidates posts).length +
        3 * (sortedCandidates posts).length := by ring
  have hrw2 : (k + 3) * (sortedCandidates posts).length =
      (k + 1) * (sortedCandidates posts).length +
        2 * (sortedCandidates posts).length := by ring
  have hrw3 : (k + 3 - 2) = k + 1 := by omega
  rw [hrw, hrw2, hrw3]
  generalize (k + 1) * (sortedCandidates posts).length = u
  generalize hL : (sortedCandidates posts).length = L
  by_cases hc : (u + 2 * L) / 3 ≤ (u + 3 * L) / 3 ∧ (u + 3 * L) / 3 ≤ L
  · rw [if_pos hc]
    simp only [Option.map_some']
    constructor
    · intro hx
      exact absurd hx (by simp)
    · intro h3
      have := hc.2
      omega
  · rw [if_neg hc]
    simp only [Option.map_none']
    constructor
    · intro _
      by_contra hlt
      exact hc ⟨by omega, by omega⟩
    · intro _
      trivial

/-- Witness for C2 (amended): on a store whose three records all qualify,
bucket index 3 indeed fails (the slice `[3, 4)` is out of range for a
3-element candidate list). -/
theorem candidates_high_bucket_fails_iff_witness :
    3 ≤ 3 ∧ (candidates threeCandidateStore 3 = none ↔
      3 ≤ (3 - 2) * (sortedCandidates threeCandidateStore).length) :=
  ⟨by decide, candidates_high_bucket_fails_iff threeCandidateStore 3 (by decide)⟩

lemma dedupKeys_subset {l : Store} {p : String × Json} (h : p ∈ dedupKeys l) :
    p ∈ l := by
  induction l with
  | nil => cases h
  | cons q rest ih =>
    obtain ⟨k, v⟩ := q
    unfold dedupKeys at h
    by_cases hany : rest.any (fun p => p.1 == k) = true
    · rw [if_pos hany] at h
      exact List.mem_cons_of_mem _ (ih h)
    · rw [if_neg hany] at h
      cases h with
      | head => exact List.mem_cons_self _ _
      | tail _ h => exact List.mem_cons_of_mem _ (ih h)

lemma mem_keys_dedupKeys (l : Store) (k : String) :
    k ∈ (dedupKeys l).map (·.1) ↔ k ∈ l.map (·.1) := by
  induction l with
  | nil => simp [dedupKeys]
  | cons q rest ih =>
    obtain ⟨k', v⟩ := q
    unfold dedupKeys
    by_cases hany : rest.any (fun p => p.1 == k') = true
    · rw [if_pos hany]
      simp only [List.map_cons, List.mem_cons, ih]
      constructor
      · exact Or.inr
      · rintro (rfl | h)
        · obtain ⟨p, hp, hpk⟩ := List.any_eq_true.mp hany
          have : p.1 = k := by simpa using hpk
          exact this ▸ List.mem_map_of_mem _ hp
        · exact h
    · rw [if_neg hany]
      simp only [List.map_cons, List.mem_cons, ih]

lemma dedupKeys_keys_nodup (l : Store) : ((dedupKeys l).map (·.1)).Nodup := by
  induction l with
  | nil => simp [dedupKeys]
  | cons q rest ih =>
    obtain ⟨k, v⟩ := q
    unfold dedupKeys
    by_cases hany : rest.any (fun p => p.1 == k) = true
    · rw [if_pos hany]
      exact ih
    · rw [if_neg hany]
      simp only [List.map_cons, List.nodup_cons]
      refine ⟨?_, ih⟩
      rw [mem_keys_dedupKeys]
      intro hk
      obtain ⟨p, hp, hpk⟩ := List.mem_map.mp hk
      exact hany (List.any_eq_true.mpr ⟨p, hp, by simp [hpk]⟩)

lemma dedupKeys_eq_of_nodup {l : Store} (h : (l.map (·.1)).Nodup) :
    dedupKeys l = l := by
  induction l with
  | nil => rfl
  | cons q rest ih =>
    obtain ⟨k, v⟩ := q
    simp only [List.map_cons, List.nodup_cons] at h
    unfold dedupKeys
    have hany : rest.any (fun p => p.1 == k) = false := by
      rw [List.any_eq_false]
      rintro p hp
      simp only [beq_iff_eq]
      intro hpk
      exact h.1 (hpk ▸ List.mem_map_of_mem _ hp)
    rw [hany]
    simp only [Bool.false_eq_true, if_false]
    rw [ih h.2]

lemma loadEntries_keys (records : List Json) :
    (loadEntries records).map (·.1) = records.map (fun r => get_str r "id") := by
  unfold loadEntries
  rw [List.map_map]
  rfl

lemma find_loadEntries {records : List Json} {r : Json}
    (hnodup : (records.map (fun x => get_str x "id")).Nodup) (hr : r ∈ records) :
    (loadEntries records).find? (fun p => p.1 == get_str r "id") =
      some (get_str r "id", r) := by
  induction records with
  | nil => cases hr
  | cons a rest ih =>
    simp only [List.map_cons, List.nodup_cons] at hnodup
    unfold loadEntries
    simp only [List.map_cons]
    by_cases heq : get_str a "id" = get_str r "id"
    · rw [List.find?_cons_of_pos _ (by simpa using heq)]
      cases hr with
      | head => rfl
      | tail _ hmem =>
        refine absurd ?_ hnodup.1
        rw [heq]
        exact List.mem_map_of_mem _ hmem
    · rw [List.find?_cons_of_neg _ (by simpa using heq)]
      cases hr with
      | head => exact absurd rfl heq
      | tail _ hmem => exact ih hnodup.2 hmem

/-- C6: on a store loaded from records with pairwise-distinct ids, `lookup`
returns exactly the record inserted under the looked-up id, and returns
`none` exactly for ids that were never loaded. -/
theorem lookup_round_trip (records : List Json) (id : String)
    (hnodup : (records.map (fun r => get_str r "id")).Nodup) :
    (∀ r ∈ records, get_str r "id" = id → lookup (loadStore records) id = some r) ∧
    (lookup (loadStore records) id = none ↔
      id ∉ records.map (fun r => get_str r "id")) := by
  have hload : loadStore records = loadEntries records := by
    unfold loadStore
    apply dedupKeys_eq_of_nodup
    rw [loadEntries_keys]
    exact hnodup
  constructor
  · rintro r hr rfl
    unfold lookup
    rw [hload, find_loadEntries hnodup hr]
    rfl
  · unfold lookup
    rw [hload, Option.map_eq_none', List.find?_eq_none]
    unfold loadEntries
    constructor
    · intro h hmem
      obtain ⟨r, hr, hid⟩ := List.mem_map.mp hmem
      exact h (get_str r "id", r) (List.mem_map_of_mem _ hr) (by simpa using hid)
    · intro h x hx
      obtain ⟨r, hr, rfl⟩ := List.mem_map.mp hx
      simp only [beq_iff_eq]
      intro hid
      refine h ?_
      rw [← hid]
      exact List.mem_map_of_mem _ hr

/-- Witness for C6: looking up id "1" in the store loaded from the spec's
two worked-example records returns the first record. -/
theorem lookup_round_trip_witness :
    lookup (loadStore [examplePost, catPhotosPost]) "1" = some examplePost :=
  (lookup_round_trip [examplePost, catPhotosPost] "1" (by decide)).1
    examplePost (List.Mem.head _) rfl

/-- C7: the field accessor returns the field's string value when the key is
present with a string value, and the empty string — never an error — when
the key is absent or its value is not string-typed. -/
theorem get_str_fail_soft (v : Json) (key : String) :
    (∀ s, v.getKey key = some (Json.str s) → get_str v key = s) ∧
    ((∀ s, v.getKey key ≠ some (Json.str s)) → get_str v key = "") := by
  constructor
  · intro s hs
    unfold get_str
    rw [hs]
    rfl
  · intro h
    unfold get_str
    cases hv : v.getKey key with
    | none => rfl
    | some j =>
      cases j
      case str s => exact absurd hv (h s)
      all_goals rfl

/-- Witness for C7: on the worked-example record, a present string field is
returned verbatim and an absent field resolves to the empty string. -/
theorem get_str_fail_soft_witness :
    get_str examplePost "title" = "Switching careers into programming" ∧
      get_str examplePost "missing" = "" :=
  ⟨(get_str_fail_soft examplePost "title").1 _ rfl,
   (get_str_fail_soft examplePost "missing").2 (fun _ h => Option.noConfusion h)⟩

lemma length_filter_key_le_one {l : Store} (h : (l.map (·.1)).Nodup) (c : String) :
    (l.filter (fun p => p.1 == c)).length ≤ 1 := by
  induction l with
  | nil => simp
  | cons a rest ih =>
    simp only [List.map_cons, List.nodup_cons] at h
    rw [List.filter_cons]
    by_cases hc : (a.1 == c) = true
    · rw [if_pos hc]
      have hnil : rest.filter (fun p => p.1 == c) = [] := by
        rw [List.filter_eq_nil_iff]
        intro p hp
        simp only [beq_iff_eq]
        intro hpk
        refine h.1 ?_
        rw [show a.1 = c from by simpa using hc, ← hpk]
        exact List.mem_map_of_mem _ hp
      rw [hnil]
      simp
    · rw [if_neg hc]
      exact ih h.2

/-- C10: every entry of the loaded store is keyed by the string value of its
record's own "id" field (the empty string when that field is absent or not
a string), the keys are pairwise distinct — so at most one record lacking a
string id survives loading — and in particular at most one entry is keyed
by the empty string. -/
theorem store_keyed_by_own_id (records : List Json) :
    (∀ p ∈ loadStore records, p.1 = get_str p.2 "id") ∧
    ((loadStore records).map (·.1)).Nodup ∧
    ((loadStore records).filter (fun p => p.1 == "")).length ≤ 1 := by
  refine ⟨?_, dedupKeys_keys_nodup _, ?_⟩
  · intro p hp
    have hmem : p ∈ loadEntries records := dedupKeys_subset hp
    unfold loadEntries at hmem
    obtain ⟨r, hr, rfl⟩ := List.mem_map.mp hmem
    rfl
  · exact length_filter_key_le_one (dedupKeys_keys_nodup _) ""

/-- Witness for C10: instantiated on the spec's worked-example records, the
loaded store's first entry is keyed by its record's id field, and the keys
are pairwise distinct. -/
theorem store_keyed_by_own_id_witness :
    ("1", examplePost).1 = get_str examplePost "id" ∧
      ((loadStore [examplePost, catPhotosPost]).map (·.1)).Nodup :=
  ⟨(store_keyed_by_own_id [examplePost, catPhotosPost]).1
      ("1", examplePost) (List.Mem.head _),
   (store_keyed_by_own_id [examplePost, catPhotosPost]).2.1⟩

instance : IsTotal Json idLe :=
  ⟨fun a b => le_total (get_str a "id") (get_str b "id")⟩

instance : IsTrans Json idLe :=
  ⟨fun _ _ _ hab hbc => le_trans hab hbc⟩

lemma candidateFilter_keys_sublist (posts : Store) :
    ((candidateFilter posts).map (fun r => get_str r "id")).Sublist
      (posts.map (fun p => get_str p.2 "id")) := by
  unfold candidateFilter
  rw [List.map_map]
  have h := ((List.filter_sublist
      (l := posts.map (fun p => (p.2, get_str p.2 "title", get_str p.2 "selftext")))
      (p := fun x => topicMatchers.any fun terms =>
        terms.all fun re => isMatch re x.2.1 || isMatch re x.2.2)).map
    (fun x : Json × String × String => get_str x.1 "id"))
  rw [List.map_map] at h
  exact h

lemma pairwise_lt_of_sorted_nodup {l : List Json}
    (hsort : l.Pairwise idLe)
    (hnod : (l.map (fun r => get_str r "id")).Nodup) :
    l.Pairwise (fun a b => get_str a "id" < get_str b "id") := by
  have hne : l.Pairwise (fun a b => get_str a "id" ≠ get_str b "id") :=
    List.pairwise_map.mp hnod
  exact (hsort.and hne).imp (fun h => lt_of_le_of_ne h.1 h.2)

/-- C8: on the same store — presented to the parallel scan in any two
collection orders, i.e. any two permutations of its entries, with the
records' ids pairwise distinct as the hash map guarantees — `candidates`
produces identical sorted lists and identical buckets, because the scan's
output is sorted by id (lexicographic string order) before slicing. -/
theorem candidates_scan_order_independent (posts₁ posts₂ : Store) (n : Nat)
    (hperm : posts₁.Perm posts₂)
    (hids : (posts₁.map (fun p => get_str p.2 "id")).Nodup) :
    sortedCandidates posts₁ = sortedCandidates posts₂ ∧
      candidates posts₁ n = candidates posts₂ n := by
  have hfilt : (candidateFilter posts₁).Perm (candidateFilter posts₂) := by
    unfold candidateFilter
    exact ((hperm.map _).filter _).map _
  have hp₁ : (sortedCandidates posts₁).Perm (candidateFilter posts₁) :=
    List.perm_insertionSort idLe _
  have hp₂ : (sortedCandidates posts₂).Perm (candidateFilter posts₂) :=
    List.perm_insertionSort idLe _
  have hs : (sortedCandidates posts₁).Perm (sortedCandidates posts₂) :=
    hp₁.trans (hfilt.trans hp₂.symm)
  have hn₁ : ((sortedCandidates posts₁).map (fun r => get_str r "id")).Nodup :=
    ((hp₁.map _).nodup_iff).mpr
      (List.Nodup.sublist (candidateFilter_keys_sublist posts₁) hids)
  have hn₂ : ((sortedCandidates posts₂).map (fun r => get_str r "id")).Nodup :=
    ((hs.map _).nodup_iff).mp hn₁
  have hsort₁ : (sortedCandidates posts₁).Pairwise idLe :=
    List.sorted_insertionSort idLe _
  have hsort₂ : (sortedCandidates posts₂).Pairwise idLe :=
    List.sorted_insertionSort idLe _
  have hstr₁ := pairwise_lt_of_sorted_nodup hsort₁ hn₁
  have hstr₂ := pairwise_lt_of_sorted_nodup hsort₂ hn₂
  haveI : IsAntisymm Json (fun a b => get_str a "id" < get_str b "id") :=
    ⟨fun _ _ h1 h2 => absurd h2 (lt_asymm h1)⟩
  have heq : sortedCandidates posts₁ = sortedCandidates posts₂ :=
    List.eq_of_perm_of_sorted hs hstr₁ hstr₂
  refine ⟨heq, ?_⟩
  unfold candidates
  rw [heq]

/-- The worked-example store with its two entries scanned in the other
order. -/
def exampleStoreSwapped : Store :=
  [("2", catPhotosPost), ("1", examplePost)]

/-- Witness for C8: the two collection orders of the worked-example store
yield identical sorted candidate lists and identical bucket 0. -/
theorem candidates_scan_order_independent_witness :
    sortedCandidates exampleStore = sortedCandidates exampleStoreSwapped ∧
      candidates exampleStore 0 = candidates exampleStoreSwapped 0 :=
  candidates_scan_order_independent exampleStore exampleStoreSwapped 0
    (List.Perm.swap ("2", catPhotosPost) ("1", examplePost) [])
    (by decide)
